import Mathlib

/-! # A shallow embedding of the scaleproc routine of src/CubeStuff.cpp

The routine receives a dense R x C x N array of doubles (N samples, each an
R x C matrix of landmark coordinates) and returns a length-N weight vector.
We model doubles by real numbers, with division by zero following Mathlib's
x / 0 = 0 convention, and we model the external symmetric eigensolver
(Armadillo's eig_sym, which delegates to LAPACK) as an explicit function
parameter, since it is an external collaborator of the repository.
Armadillo's bounds-checked element accesses throw on an out-of-range index;
the embedding returns Option.none in exactly those situations, and some h
when the routine returns the weight vector h. -/

namespace CubeStuff

noncomputable section

open Finset

/-- The caller's 3-dimensional array: N slices (samples), each an R x C real
matrix, exactly as the cube constructor views the flat buffer together with
its dimension attribute (arrayDims[0] = R rows, arrayDims[1] = C columns,
arrayDims[2] = N slices). -/
structure Stack where
  R : ℕ
  C : ℕ
  N : ℕ
  data : Fin N → Fin R → Fin C → ℝ

/-- Feature count kk = omat.n_cols = arrayDims[0] * arrayDims[1]. -/
def Stack.K (x : Stack) : ℕ := x.R * x.C

lemma R_pos {x : Stack} (j : Fin x.K) : 0 < x.R := by
  rcases Nat.eq_zero_or_pos x.R with h | h
  · exact absurd j.isLt (by simp [Stack.K, h])
  · exact h

lemma C_pos {x : Stack} (j : Fin x.K) : 0 < x.C := by
  rcases Nat.eq_zero_or_pos x.C with h | h
  · exact absurd j.isLt (by simp [Stack.K, h])
  · exact h

/-- Row i of the matrix omat: the column-major vectorisation of slice i of
the cube (vectorise places entry (r,c) at flat index c * R + r, so flat
index j holds entry (j mod R, j div R)).  This is also omatorig, the copy
taken before omat is centered and scaled in place. -/
def omatEntry (x : Stack) (i : Fin x.N) (j : Fin x.K) : ℝ :=
  x.data i ⟨j.val % x.R, Nat.mod_lt _ (R_pos j)⟩
    ⟨j.val / x.R, (Nat.div_lt_iff_lt_mul (R_pos j)).mpr
      (by rw [mul_comm]; exact j.isLt)⟩

/-- aa(i) = accu(slice i % slice i): the sum of squared entries of sample i. -/
def aa (x : Stack) (i : Fin x.N) : ℝ := ∑ r, ∑ c, (x.data i r c) ^ 2

/-- aasum = sum(aa). -/
def aasum (x : Stack) : ℝ := ∑ i, aa x i

/-- df after the statement df = (df-1)/df, where df was initialised to nn. -/
def df0 (x : Stack) : ℝ := ((x.N : ℝ) - 1) / (x.N : ℝ)

/-- mean(omat.row(i)): the mean of the K entries of row i. -/
def rowMean (x : Stack) (i : Fin x.N) : ℝ := (∑ j, omatEntry x i j) / (x.K : ℝ)

/-- var(omat.row(i), 0): sample variance of the K entries of row i
(norm_type 0 divides by K - 1). -/
def rowVar (x : Stack) (i : Fin x.N) : ℝ :=
  (∑ j, (omatEntry x i j - rowMean x i) ^ 2) / ((x.K : ℝ) - 1)

/-- qq(i) = var(omat.row(i), 0) * df, with df = (nn-1)/nn. -/
def qq (x : Stack) (i : Fin x.N) : ℝ := rowVar x i * df0 x

/-- Row i of omat after the centering statement omat.row(i) -= mean(omat.row(i)). -/
def centered (x : Stack) (i : Fin x.N) (j : Fin x.K) : ℝ :=
  omatEntry x i j - rowMean x i

/-- Row i of omat after the scaling statement omat = diagmat(sqrt(1/qq)) * omat. -/
def scaled (x : Stack) (i : Fin x.N) (j : Fin x.K) : ℝ :=
  Real.sqrt (1 / qq x i) * centered x i j

/-- Lmat = omat.t() * (omat / df) with df = kk, a K x K matrix. -/
def Lmat (x : Stack) (a b : Fin x.K) : ℝ :=
  (∑ i, scaled x i a * scaled x i b) / (x.K : ℝ)

/-- Result of a symmetric eigensolve: a vector of eigenvalues and the matrix
whose column j is the eigenvector paired with eigenvalue j. -/
structure EigResult (n : ℕ) where
  val : Fin n → ℝ
  vec : Fin n → Fin n → ℝ

/-- The external eigensolver standing for Armadillo's eig_sym: a
deterministic function from a symmetric n x n matrix to eigenvalues
(which eig_sym reports in ascending order) and eigenvectors. -/
def EigSolver : Type := ∀ n : ℕ, (Fin n → Fin n → ℝ) → EigResult n

/-- lambda as produced by eig_sym(lambda, U, Lmat). -/
def lam (eig : EigSolver) (x : Stack) : Fin x.K → ℝ := (eig x.K (Lmat x)).val

/-- U as produced by eig_sym(lambda, U, Lmat). -/
def Umat (eig : EigSolver) (x : Stack) : Fin x.K → Fin x.K → ℝ :=
  (eig x.K (Lmat x)).vec

/-- usort(i) = nlam - 1 - i: the index reversal applied to lambda and to the
columns of U. -/
def revIdx {k : ℕ} (j : Fin k) : Fin k :=
  ⟨k - 1 - j.val, by omega⟩

/-- lambda after lambda = lambda(usort): the eigenvalues in reversed order. -/
def lamRev (eig : EigSolver) (x : Stack) (j : Fin x.K) : ℝ :=
  lam eig x (revIdx j)

/-- V = omat * U, where U has already had its columns reversed; an N x K
matrix. -/
def Vmat (eig : EigSolver) (x : Stack) (i : Fin x.N) (j : Fin x.K) : ℝ :=
  ∑ a, scaled x i a * Umat eig x a (revIdx j)

/-- vv(j) = sqrt(dot(V.col(j), V.col(j))): the pre-normalisation norm of
column j of V. -/
def vv (eig : EigSolver) (x : Stack) (j : Fin x.K) : ℝ :=
  Real.sqrt (∑ i, (Vmat eig x i j) ^ 2)

/-- Column j of V after the statement V.col(j) = V.col(j) / vv(j). -/
def Vn (eig : EigSolver) (x : Stack) (i : Fin x.N) (j : Fin x.K) : ℝ :=
  Vmat eig x i j / vv eig x j

/-- delta = sqrt(abs(lambda / df)) % vv with df = kk and lambda reversed. -/
def delta (eig : EigSolver) (x : Stack) (j : Fin x.K) : ℝ :=
  Real.sqrt |lamRev eig x j / (x.K : ℝ)| * vv eig x j

/-- Predicate: position m is in range and the value there is a maximum of f. -/
def isTopAt {k : ℕ} (f : Fin k → ℝ) (m : ℕ) : Prop :=
  ∃ h : m < k, ∀ j, f j ≤ f ⟨m, h⟩

lemma exists_isTopAt {k : ℕ} (f : Fin k → ℝ) (hk : 0 < k) : ∃ m, isTopAt f m := by
  have : Nonempty (Fin k) := ⟨⟨0, hk⟩⟩
  obtain ⟨j0, hj0⟩ := Finite.exists_max f
  exact ⟨j0.val, j0.isLt, by simpa using hj0⟩

open Classical in
/-- od(0), the first entry of od = sort_index(delta, "descend"), pinned to
one admissible result: the position of a maximal value of f, with ties
resolved to the least index.  Armadillo's sort_index uses an unstable sort
(a separate stable variant exists), so among tied maxima the real od(0) is
unspecified; IsDescSortIndex below captures exactly what is guaranteed, and
statements about which column is selected at ties quantify over it rather
than relying on this pinned tie-break. -/
def argmaxFirst {k : ℕ} (f : Fin k → ℝ) (hk : 0 < k) : Fin k :=
  ⟨Nat.find (exists_isTopAt f hk), (Nat.find_spec (exists_isTopAt f hk)).choose⟩

open Classical in
lemma argmaxFirst_isTop {k : ℕ} (f : Fin k → ℝ) (hk : 0 < k) (j : Fin k) :
    f j ≤ f (argmaxFirst f hk) := by
  have h := (Nat.find_spec (exists_isTopAt f hk)).choose_spec j
  exact h

open Classical in
lemma argmaxFirst_eq_zero {k : ℕ} (f : Fin k → ℝ) (hk : 0 < k)
    (h0 : ∀ j, f j ≤ f ⟨0, hk⟩) : argmaxFirst f hk = ⟨0, hk⟩ := by
  have hle : Nat.find (exists_isTopAt f hk) ≤ 0 :=
    Nat.find_le ⟨hk, h0⟩
  exact Fin.ext (Nat.le_zero.mp hle)

/-- The guaranteed contract of od = sort_index(v, "descend"): the returned
index vector is a permutation of the indices arranging v in descending
order.  Armadillo's sort_index uses an unstable sort, so when v has tied
entries any permutation meeting this contract is an admissible result: the
relative order of tied entries, and hence od(0) among tied maxima, is
unspecified. -/
def IsDescSortIndex {k : ℕ} (v : Fin k → ℝ) (od : Fin k → Fin k) : Prop :=
  Function.Bijective od ∧ ∀ a b : Fin k, a ≤ b → v (od b) ≤ v (od a)

/-- The weight vector h = abs(sqrt(aasum/aa) % V.col(od(0))) returned by the
samples-rich (nn > kk) branch. -/
def richH (eig : EigSolver) (x : Stack) (hK : 0 < x.K) (i : Fin x.N) : ℝ :=
  |Real.sqrt (aasum x / aa x i) * Vn eig x i (argmaxFirst (delta eig x) hK)|

/-- The same weight vector as a function of an arbitrary index vector od
standing for the result of sort_index: h i = abs(sqrt(aasum/aa i) *
V(i, od(0))). -/
def richHSort (eig : EigSolver) (x : Stack) (od : Fin x.K → Fin x.K)
    (h0 : 0 < x.K) (i : Fin x.N) : ℝ :=
  |Real.sqrt (aasum x / aa x i) * Vn eig x i (od ⟨0, h0⟩)|

lemma richH_eq_richHSort (eig : EigSolver) (x : Stack) (hK : 0 < x.K) :
    richH eig x hK =
      richHSort eig x (fun _ => argmaxFirst (delta eig x) hK) hK := rfl

/-- Covariance between samples i1 and i2 used by cor(omatorig.t()): the
columns of omatorig.t() are the samples, its K rows the observations, and
the default norm_type 0 divides by K - 1. -/
def sampleCov (x : Stack) (i1 i2 : Fin x.N) : ℝ :=
  (∑ j, (omatEntry x i1 j - rowMean x i1) * (omatEntry x i2 j - rowMean x i2)) /
    ((x.K : ℝ) - 1)

/-- zz = cor(omatorig.t()): each covariance divided by the product of the
corresponding standard deviations. -/
def zzCor (x : Stack) (i1 i2 : Fin x.N) : ℝ :=
  sampleCov x i1 i2 /
    (Real.sqrt (sampleCov x i1 i1) * Real.sqrt (sampleCov x i2 i2))

/-- eigvec as produced by eig_sym(eigval, eigvec, zz) in the feature-rich
branch. -/
def eigvecPoor (eig : EigSolver) (x : Stack) : Fin x.N → Fin x.N → ℝ :=
  (eig x.N (zzCor x)).vec

/-- Modelled from Armadillo (an external collaborator): maxval =
eigval.n_cols is read from the default-constructed vec eigval before
eig_sym has filled it; a default-constructed arma::Col is a 0 x 1 matrix
(Col's constructor delegates to Mat with vec_state 1, which sets n_rows = 0
and n_cols = 1), so maxval is 1, not 0. -/
def maxvalIdx : ℕ := 1

/-- The weight vector h = abs(sqrt(aasum/aa) % eigvec.col(maxval)) returned
by the feature-rich (nn <= kk) branch. -/
def poorH (eig : EigSolver) (x : Stack) (hN : maxvalIdx < x.N) (i : Fin x.N) : ℝ :=
  |Real.sqrt (aasum x / aa x i) * eigvecPoor eig x i ⟨maxvalIdx, hN⟩|

/-- The samples-rich branch of scaleproc.  When kk = 0 the eigenvalue vector
is empty and the bounds-checked read od(0) throws, so no vector is returned. -/
def samplesRichResult (eig : EigSolver) (x : Stack) : Option (Fin x.N → ℝ) :=
  if hK : 0 < x.K then some (richH eig x hK) else none

/-- The feature-rich branch of scaleproc.  The bounds-checked access
eigvec.col(maxval) with maxval = 1 throws unless 1 < N, in which case no
vector is returned. -/
def featureRichResult (eig : EigSolver) (x : Stack) : Option (Fin x.N → ℝ) :=
  if hN : maxvalIdx < x.N then some (poorH eig x hN) else none

/-- scaleproc: branch on nn > kk and return the weight vector of the chosen
branch (the Rprintf diagnostic in the samples-rich branch does not affect
the returned value and is not modelled). -/
def scaleproc (eig : EigSolver) (x : Stack) : Option (Fin x.N → ℝ) :=
  if x.K < x.N then samplesRichResult eig x else featureRichResult eig x

/-- The state threaded through the flattening loop (the for loop over the
slices): the caller's buffer, which the cube views without copying, together
with the locals aa and omat being filled in.  The buffer is threaded so that
any write the loop made to it would show up in the final state; the loop
body only reads it. -/
structure LoopState (x : Stack) where
  buf : Fin x.N → Fin x.R → Fin x.C → ℝ
  aaAcc : Fin x.N → ℝ
  omatAcc : Fin x.N → Fin x.K → ℝ

/-- One loop iteration: aa(i) = accu(slice i % slice i) and omat.row(i) =
vectorise(slice i), both reading slice i of the buffer; no statement of the
body writes to the buffer. -/
def flattenStep (x : Stack) (st : LoopState x) (i : Fin x.N) : LoopState x where
  buf := st.buf
  aaAcc := Function.update st.aaAcc i (∑ r, ∑ c, (st.buf i r c) ^ 2)
  omatAcc := Function.update st.omatAcc i (fun j =>
    st.buf i ⟨j.val % x.R, Nat.mod_lt _ (R_pos j)⟩
      ⟨j.val / x.R, (Nat.div_lt_iff_lt_mul (R_pos j)).mpr
        (by rw [mul_comm]; exact j.isLt)⟩)

/-- The state before the loop: the buffer holds the caller's data, and the
freshly allocated vec aa(n) and mat omat(n, k) are modelled as zero-filled. -/
def initState (x : Stack) : LoopState x := ⟨x.data, fun _ => 0, fun _ _ => 0⟩

/-- The state after the loop has run over i = 0, ..., n-1. -/
def finalState (x : Stack) : LoopState x :=
  (List.finRange x.N).foldl (flattenStep x) (initState x)

lemma foldl_buf (x : Stack) (l : List (Fin x.N)) (st : LoopState x) :
    (l.foldl (flattenStep x) st).buf = st.buf := by
  induction l generalizing st with
  | nil => rfl
  | cons i l ih => rw [List.foldl_cons, ih]; rfl

lemma foldl_aa (x : Stack) (l : List (Fin x.N)) (st : LoopState x)
    (hbuf : st.buf = x.data) (j : Fin x.N) :
    (l.foldl (flattenStep x) st).aaAcc j =
      if j ∈ l then aa x j else st.aaAcc j := by
  induction l generalizing st with
  | nil => simp
  | cons i l ih =>
    rw [List.foldl_cons, ih _ (by rw [← hbuf]; rfl)]
    by_cases hjl : j ∈ l
    · simp [hjl]
    · by_cases hji : j = i
      · subst hji
        simp [hjl, flattenStep, hbuf, aa]
      · simp [hjl, hji, flattenStep, Function.update_noteq hji]

lemma foldl_omat (x : Stack) (l : List (Fin x.N)) (st : LoopState x)
    (hbuf : st.buf = x.data) (j : Fin x.N) :
    (l.foldl (flattenStep x) st).omatAcc j =
      if j ∈ l then (fun k => omatEntry x j k) else st.omatAcc j := by
  induction l generalizing st with
  | nil => simp
  | cons i l ih =>
    rw [List.foldl_cons, ih _ (by rw [← hbuf]; rfl)]
    by_cases hjl : j ∈ l
    · simp [hjl]
    · by_cases hji : j = i
      · subst hji
        simp [hjl, flattenStep, hbuf, omatEntry]
      · simp [hjl, hji, flattenStep, Function.update_noteq hji]

/-- A concrete eigensolver used to instantiate theorems at specific inputs:
it reports all eigenvalues as 0 and the identity matrix of eigenvectors. -/
def trivEig : EigSolver := fun _ _ => ⟨fun _ => 0, fun i j => if i = j then 1 else 0⟩

/-- A concrete 1 x 1 x 1 stack whose single entry is 1. -/
def stack1 : Stack := ⟨1, 1, 1, fun _ _ _ => 1⟩

/-- A concrete 2 x 1 x 2 stack (N = K = 2): slice 0 is (1,0), slice 1 is (0,1). -/
def stack2 : Stack := ⟨2, 1, 2, fun i r _ => if i.val = r.val then 1 else 0⟩

/-- A concrete 1 x 1 x 2 stack (K = 1 < N = 2): slice i holds the value i+1. -/
def stackW1 : Stack := ⟨1, 1, 2, fun i _ _ => (i.val : ℝ) + 1⟩

/-- A concrete 2 x 1 x 3 stack (K = 2 < N = 3): every slice is (3,0). -/
def stack3 : Stack := ⟨2, 1, 3, fun _ r _ => if r.val = 0 then 3 else 0⟩

/-- A concrete 3 x 1 x 4 stack (K = 3 < N = 4): slices 0 and 1 are (2,0,1),
slices 2 and 3 are (1,1,-2).  The two centered directions (1,-1,0) and
(1,1,-2) are orthogonal and the scaled rows all have squared norm 8/3, so
Lmat is (16/9) times the projection away from (1,1,1): its top eigenvalue
16/9 is a double one. -/
def cexStack : Stack :=
  ⟨3, 1, 4, fun i r _ =>
    if i.val ≤ 1 then (if r.val = 0 then 2 else if r.val = 1 then 0 else 1)
    else (if r.val = 2 then -2 else 1)⟩

/-- A concrete eigensolver whose (input-independent) output is a genuine
ascending orthonormal eigensystem of Lmat cexStack: eigenvalue 0 with
eigenvector (1,1,1)/sqrt 3, then the doubled eigenvalue 16/9 with
eigenvectors (1,-1,0)/sqrt 2 and (1,1,-2)/sqrt 6. -/
def cexEig : EigSolver := fun _ _ =>
  ⟨fun j => if j.val = 0 then 0 else 16 / 9,
   fun i j =>
     if j.val = 0 then Real.sqrt 3⁻¹
     else if j.val = 1 then
       (if i.val = 0 then Real.sqrt 2⁻¹
        else if i.val = 1 then -Real.sqrt 2⁻¹ else 0)
     else
       (if i.val = 2 then -2 * Real.sqrt 6⁻¹
        else if i.val ≤ 1 then Real.sqrt 6⁻¹ else 0)⟩

/-- An admissible result of sort_index(delta, "descend") at cexStack with
cexEig, one an unstable sort may return: it swaps the two tied maximal
positions 0 and 1 and fixes the rest. -/
def cexOd : Fin cexStack.K → Fin cexStack.K := fun j =>
  if j.val = 0 then ⟨1, Nat.succ_lt_succ (Nat.succ_pos 1)⟩
  else if j.val = 1 then ⟨0, Nat.succ_pos 2⟩ else j

/-- A concrete eigensolver whose (input-independent) output is a genuine
ascending orthonormal eigensystem of the correlation matrix of stack2,
which is [[1,-1],[-1,1]]: eigenvalue 0 with eigenvector (1,1)/sqrt 2 and
eigenvalue 2 with eigenvector (1,-1)/sqrt 2. -/
def swapEig : EigSolver := fun _ _ =>
  ⟨fun j => if j.val = 0 then 0 else 2,
   fun i j =>
     if j.val = 0 then Real.sqrt 2⁻¹
     else (if i.val = 0 then Real.sqrt 2⁻¹ else -Real.sqrt 2⁻¹)⟩

lemma sum_scaled_eq (x : Stack) (hK0 : (x.K : ℝ) ≠ 0) (a b : Fin x.K) :
    ∑ i, scaled x i a * scaled x i b = (x.K : ℝ) * Lmat x a b := by
  rw [Lmat, mul_comm, div_mul_cancel₀ _ hK0]

lemma sum_sq_Vmat (eig : EigSolver) (x : Stack) (hK : 0 < x.K) (j : Fin x.K)
    (heig : ∀ a, ∑ b, Lmat x a b * Umat eig x b (revIdx j) =
      lamRev eig x j * Umat eig x a (revIdx j))
    (hunit : ∑ a, (Umat eig x a (revIdx j)) ^ 2 = 1) :
    ∑ i, (Vmat eig x i j) ^ 2 = (x.K : ℝ) * lamRev eig x j := by
  have hK0 : (x.K : ℝ) ≠ 0 := Nat.cast_ne_zero.mpr hK.ne'
  calc ∑ i, (Vmat eig x i j) ^ 2
      = ∑ i, ∑ a, ∑ b, (scaled x i a * Umat eig x a (revIdx j)) *
          (scaled x i b * Umat eig x b (revIdx j)) := by
        refine Finset.sum_congr rfl fun i _ => ?_
        rw [Vmat, sq, Finset.sum_mul_sum]
    _ = ∑ a, ∑ b, (Umat eig x a (revIdx j) * Umat eig x b (revIdx j)) *
          ∑ i, scaled x i a * scaled x i b := by
        rw [Finset.sum_comm]
        refine Finset.sum_congr rfl fun a _ => ?_
        rw [Finset.sum_comm]
        refine Finset.sum_congr rfl fun b _ => ?_
        rw [Finset.mul_sum]
        refine Finset.sum_congr rfl fun i _ => ?_
        ring
    _ = ∑ a, Umat eig x a (revIdx j) *
          ((x.K : ℝ) * ∑ b, Lmat x a b * Umat eig x b (revIdx j)) := by
        refine Finset.sum_congr rfl fun a _ => ?_
        rw [Finset.mul_sum, Finset.mul_sum]
        refine Finset.sum_congr rfl fun b _ => ?_
        rw [sum_scaled_eq x hK0 a b]
        ring
    _ = (x.K : ℝ) * lamRev eig x j * ∑ a, (Umat eig x a (revIdx j)) ^ 2 := by
        rw [Finset.mul_sum]
        refine Finset.sum_congr rfl fun a _ => ?_
        rw [heig a]
        ring
    _ = (x.K : ℝ) * lamRev eig x j := by rw [hunit, mul_one]

lemma lamRev_nonneg (eig : EigSolver) (x : Stack) (hK : 0 < x.K) (j : Fin x.K)
    (heig : ∀ a, ∑ b, Lmat x a b * Umat eig x b (revIdx j) =
      lamRev eig x j * Umat eig x a (revIdx j))
    (hunit : ∑ a, (Umat eig x a (revIdx j)) ^ 2 = 1) :
    0 ≤ lamRev eig x j := by
  have hV := sum_sq_Vmat eig x hK j heig hunit
  have hpos : (0 : ℝ) < (x.K : ℝ) := Nat.cast_pos.mpr hK
  have hs : 0 ≤ ∑ i, (Vmat eig x i j) ^ 2 :=
    Finset.sum_nonneg fun i _ => sq_nonneg _
  nlinarith

lemma delta_eq_lamRev (eig : EigSolver) (x : Stack) (hK : 0 < x.K) (j : Fin x.K)
    (heig : ∀ a, ∑ b, Lmat x a b * Umat eig x b (revIdx j) =
      lamRev eig x j * Umat eig x a (revIdx j))
    (hunit : ∑ a, (Umat eig x a (revIdx j)) ^ 2 = 1) :
    delta eig x j = lamRev eig x j := by
  have hV := sum_sq_Vmat eig x hK j heig hunit
  have hlam := lamRev_nonneg eig x hK j heig hunit
  have hpos : (0 : ℝ) < (x.K : ℝ) := Nat.cast_pos.mpr hK
  have hdivnn : 0 ≤ lamRev eig x j / (x.K : ℝ) := div_nonneg hlam hpos.le
  rw [delta, vv, hV, abs_of_nonneg hdivnn,
    ← Real.sqrt_mul hdivnn]
  have : lamRev eig x j / (x.K : ℝ) * ((x.K : ℝ) * lamRev eig x j) =
      lamRev eig x j ^ 2 := by
    field_simp
    ring
  rw [this, Real.sqrt_sq hlam]

/-- C3: scaleproc takes the samples-rich path exactly when N > K (K = R*C),
and the boundary case N = K takes the feature-rich branch, because the
source condition is strictly nn > kk. -/
theorem scaleproc_branch (eig : EigSolver) (x : Stack) :
    (x.K < x.N → scaleproc eig x = samplesRichResult eig x) ∧
    (¬ x.K < x.N → scaleproc eig x = featureRichResult eig x) ∧
    (x.N = x.K → scaleproc eig x = featureRichResult eig x) := by
  refine ⟨fun h => by simp [scaleproc, h], fun h => by simp [scaleproc, h],
    fun h => by simp [scaleproc, h]⟩

/-- Witness for C3 at three concrete stacks: one with N > K, one with N < K
impossible here so N = K twice over, and the 1 x 1 x 1 stack. -/
theorem scaleproc_branch_witness :
    scaleproc trivEig stackW1 = samplesRichResult trivEig stackW1 ∧
    scaleproc trivEig stack2 = featureRichResult trivEig stack2 ∧
    scaleproc trivEig stack1 = featureRichResult trivEig stack1 :=
  ⟨(scaleproc_branch trivEig stackW1).1 (by decide),
   (scaleproc_branch trivEig stack2).2.1 (by decide),
   (scaleproc_branch trivEig stack1).2.2 (by decide)⟩

/-- C5: scaleproc is deterministic: it is a pure function of the eigensolver
and the input buffer (the source has no global or static mutable state), so
two calls on buffers with identical contents give identical results. -/
theorem scaleproc_deterministic (eig : EigSolver) (R C N : ℕ)
    (d d' : Fin N → Fin R → Fin C → ℝ) (h : ∀ i r c, d i r c = d' i r c) :
    scaleproc eig ⟨R, C, N, d⟩ = scaleproc eig ⟨R, C, N, d'⟩ := by
  have hd : d = d' := funext fun i => funext fun r => funext fun c => h i r c
  rw [hd]

/-- Witness for C5: two calls on the same concrete buffer agree. -/
theorem scaleproc_deterministic_witness :
    scaleproc trivEig stack1 = scaleproc trivEig stack1 :=
  scaleproc_deterministic trivEig 1 1 1 (fun _ _ _ => 1) (fun _ _ _ => 1)
    (fun _ _ _ => rfl)

/-- C8: the flattening loop is the only part of scaleproc that touches the
caller's buffer (the cube is a non-copying view of it); after the loop the
buffer is unchanged, while the separate locals aa and omat hold exactly the
values the rest of the routine (centering and scaling included) works on. -/
theorem scaleproc_input_unchanged (x : Stack) :
    (finalState x).buf = x.data ∧
    (∀ i, (finalState x).aaAcc i = aa x i) ∧
    (∀ i j, (finalState x).omatAcc i j = omatEntry x i j) := by
  refine ⟨foldl_buf x _ _, fun i => ?_, fun i j => ?_⟩
  · rw [finalState, foldl_aa x _ _ rfl i]
    simp [List.mem_finRange]
  · rw [finalState, foldl_omat x _ _ rfl i]
    simp [List.mem_finRange]

/-- C1 amended: in the samples-rich (N > K) branch the result of the
descending sort of delta IS used: the output reads V.col(od(0)).  Under the
eig_sym contract (eigenvalues reported in ascending order, eigenvector
columns genuine unit eigenvectors of Lmat), delta equals the reversed
eigenvalue vector, so every admissible sort result points od(0) at a column
attaining the largest raw eigenvalue; when that largest eigenvalue is
simple (strictly above the others) od(0) is exactly index 0 of the
reversed order, the weight vector built from any admissible od equals the
column-0 formula, and scaleproc (whose pinned tie-break agrees with every
admissible od in that case) returns
h i = abs(sqrt(aasum / aa i) * V(i, 0)). -/
theorem scaleproc_rich_top_column (eig : EigSolver) (x : Stack)
    (hbr : x.K < x.N) (hK : 0 < x.K)
    (hasc : Monotone (lam eig x))
    (heig : ∀ j a, ∑ b, Lmat x a b * Umat eig x b j = lam eig x j * Umat eig x a j)
    (hunit : ∀ j, ∑ a, (Umat eig x a j) ^ 2 = 1) :
    (∀ od, IsDescSortIndex (delta eig x) od →
      delta eig x (od ⟨0, hK⟩) = delta eig x ⟨0, hK⟩) ∧
    (∀ od, IsDescSortIndex (delta eig x) od →
      (∀ j, j ≠ ⟨0, hK⟩ → lamRev eig x j < lamRev eig x ⟨0, hK⟩) →
      richHSort eig x od hK = fun i =>
        |Real.sqrt (aasum x / aa x i) * Vn eig x i ⟨0, hK⟩|) ∧
    scaleproc eig x = some (fun i =>
      |Real.sqrt (aasum x / aa x i) * Vn eig x i ⟨0, hK⟩|) := by
  have hdelta : ∀ j, delta eig x j = lamRev eig x j := fun j =>
    delta_eq_lamRev eig x hK j (fun a => heig (revIdx j) a) (hunit (revIdx j))
  have hdesc : ∀ j, delta eig x j ≤ delta eig x ⟨0, hK⟩ := by
    intro j
    rw [hdelta, hdelta]
    refine hasc ?_
    show revIdx j ≤ revIdx ⟨0, hK⟩
    rw [Fin.le_def]
    simp only [revIdx]
    omega
  have htopval : ∀ od, IsDescSortIndex (delta eig x) od →
      delta eig x (od ⟨0, hK⟩) = delta eig x ⟨0, hK⟩ := by
    rintro od ⟨hbij, hsort⟩
    obtain ⟨b, hb⟩ := hbij.2 ⟨0, hK⟩
    refine le_antisymm (hdesc _) ?_
    calc delta eig x ⟨0, hK⟩ = delta eig x (od b) := by rw [hb]
      _ ≤ delta eig x (od ⟨0, hK⟩) :=
        hsort ⟨0, hK⟩ b (Fin.le_def.mpr (Nat.zero_le _))
  refine ⟨htopval, ?_, ?_⟩
  · intro od hod hstrict
    have h0 : od ⟨0, hK⟩ = ⟨0, hK⟩ := by
      by_contra hne
      have hlt : delta eig x (od ⟨0, hK⟩) < delta eig x ⟨0, hK⟩ := by
        rw [hdelta, hdelta]
        exact hstrict _ hne
      exact absurd (htopval od hod) (ne_of_lt hlt)
    funext i
    rw [richHSort, h0]
  · have hod : argmaxFirst (delta eig x) hK = ⟨0, hK⟩ :=
      argmaxFirst_eq_zero (delta eig x) hK hdesc
    rw [scaleproc, if_pos hbr, samplesRichResult, dif_pos hK]
    congr 1
    funext i
    rw [richH, hod]

lemma centered_stackW1 (i : Fin stackW1.N) (j : Fin stackW1.K) :
    centered stackW1 i j = 0 := by
  fin_cases j
  simp [centered, rowMean, omatEntry, stackW1, Fin.sum_univ_succ, Stack.K]

lemma Lmat_stackW1 (a b : Fin stackW1.K) : Lmat stackW1 a b = 0 := by
  simp [Lmat, scaled, centered_stackW1]

/-- Witness for C1: the theorem applied to the 1 x 1 x 2 stack and a
concrete eigensolver whose output satisfies the eig_sym contract there; the
first conjunct is instantiated at the identity index vector, which is an
admissible sort result. -/
theorem scaleproc_rich_top_column_witness :
    delta trivEig stackW1 ((fun j => j) ⟨0, Nat.one_pos⟩) =
      delta trivEig stackW1 ⟨0, Nat.one_pos⟩ ∧
    scaleproc trivEig stackW1 = some (fun i =>
      |Real.sqrt (aasum stackW1 / aa stackW1 i) *
        Vn trivEig stackW1 i ⟨0, Nat.one_pos⟩|) := by
  have h := scaleproc_rich_top_column trivEig stackW1 (by decide) Nat.one_pos
    (fun _ _ _ => le_rfl)
    (by
      intro j a
      simp [lam, trivEig, Lmat_stackW1])
    (by
      intro j
      simp [Umat, trivEig, apply_ite (fun t : ℝ => t ^ 2)])
  refine ⟨h.1 (fun j => j) ⟨Function.bijective_id, ?_⟩, h.2.2⟩
  intro a b _
  fin_cases a <;> fin_cases b <;> exact le_rfl

lemma cexOmat (i : Fin cexStack.N) (j : Fin cexStack.K) :
    omatEntry cexStack i j =
      if i.val ≤ 1 then (if j.val = 0 then 2 else if j.val = 1 then 0 else 1)
      else (if j.val = 2 then -2 else 1) := by
  fin_cases i <;> fin_cases j <;> rfl

lemma sumK_cex (f : Fin cexStack.K → ℝ) :
    ∑ j, f j = f ⟨0, Nat.succ_pos 2⟩ + f ⟨1, Nat.succ_lt_succ (Nat.succ_pos 1)⟩ +
      f ⟨2, Nat.lt_succ_self 2⟩ := Fin.sum_univ_three f

lemma sumN_cex (f : Fin cexStack.N → ℝ) :
    ∑ i, f i = f ⟨0, Nat.succ_pos 3⟩ + f ⟨1, by decide⟩ + f ⟨2, by decide⟩ +
      f ⟨3, Nat.lt_succ_self 3⟩ := Fin.sum_univ_four f

lemma cexMean (i : Fin cexStack.N) :
    rowMean cexStack i = if i.val ≤ 1 then 1 else 0 := by
  fin_cases i <;>
    (simp only [rowMean, cexOmat]
     rw [sumK_cex]
     norm_num [Stack.K, cexStack])

lemma cexQQ (i : Fin cexStack.N) :
    qq cexStack i = if i.val ≤ 1 then 3 / 4 else 9 / 4 := by
  fin_cases i <;>
    (simp only [qq, rowVar, df0, cexOmat, cexMean]
     rw [sumK_cex]
     norm_num [Stack.K, cexStack])

lemma cexScaled (i : Fin cexStack.N) (j : Fin cexStack.K) :
    scaled cexStack i j =
      if i.val ≤ 1 then
        Real.sqrt (4/3) * (if j.val = 0 then 1 else if j.val = 1 then -1 else 0)
      else (if j.val = 2 then -(4/3) else 2/3) := by
  have h49 : Real.sqrt ((4:ℝ)/9) = 2/3 := by
    rw [show (4:ℝ)/9 = (2/3) ^ 2 by norm_num, Real.sqrt_sq (by norm_num)]
  fin_cases i <;> fin_cases j <;>
    (simp only [scaled, centered, cexOmat, cexMean, cexQQ]
     norm_num [h49])

lemma cexLmat (a b : Fin cexStack.K) :
    Lmat cexStack a b = if a = b then 32/27 else -16/27 := by
  have h33 : Real.sqrt 3 * Real.sqrt 3 = 3 := Real.mul_self_sqrt (by norm_num)
  rw [Lmat, sumN_cex (fun i => scaled cexStack i a * scaled cexStack i b)]
  simp only [cexScaled]
  fin_cases a <;> fin_cases b <;>
    (norm_num +decide [Stack.K, cexStack] <;> field_simp <;> nlinarith [h33])

lemma cexMonotone : Monotone (lam cexEig cexStack) := by
  intro a b hab
  simp only [lam, cexEig]
  by_cases h0 : a.val = 0
  · rw [if_pos h0]
    split_ifs <;> norm_num
  · rw [if_neg h0]
    have hb0 : ¬ b.val = 0 := fun hb =>
      h0 (Nat.le_zero.mp (le_of_le_of_eq (Fin.le_def.mp hab) hb))
    rw [if_neg hb0]

lemma cexEigenpairs (j a : Fin cexStack.K) :
    ∑ b, Lmat cexStack a b * Umat cexEig cexStack b j =
      lam cexEig cexStack j * Umat cexEig cexStack a j := by
  rw [sumK_cex (fun b => Lmat cexStack a b * Umat cexEig cexStack b j)]
  simp only [cexLmat, Umat, lam, cexEig]
  fin_cases j <;> fin_cases a <;>
    (norm_num +decide <;> ring_nf)

lemma cexUnit (j : Fin cexStack.K) :
    ∑ a, (Umat cexEig cexStack a j) ^ 2 = 1 := by
  have h3 : Real.sqrt 3⁻¹ ^ 2 = 3⁻¹ := Real.sq_sqrt (by norm_num)
  have h2 : Real.sqrt 2⁻¹ ^ 2 = 2⁻¹ := Real.sq_sqrt (by norm_num)
  have h6 : Real.sqrt 6⁻¹ ^ 2 = 6⁻¹ := Real.sq_sqrt (by norm_num)
  have h6' : ((Real.sqrt 6)⁻¹) ^ 2 = 6⁻¹ := by
    rw [← Real.sqrt_inv]
    exact h6
  rw [sumK_cex (fun a => (Umat cexEig cexStack a j) ^ 2)]
  simp only [Umat, cexEig]
  fin_cases j <;>
    (norm_num +decide <;> nlinarith [h3, h2, h6, h6'])

lemma cexDelta (j : Fin cexStack.K) :
    delta cexEig cexStack j = if j.val = 2 then 0 else 16 / 9 := by
  rw [delta_eq_lamRev cexEig cexStack (Nat.succ_pos 2) j
    (fun a => cexEigenpairs (revIdx j) a) (cexUnit (revIdx j))]
  fin_cases j <;> rfl

lemma cexOd_involutive : Function.Involutive cexOd := by
  intro j
  fin_cases j <;> rfl

lemma cexIsDesc : IsDescSortIndex (delta cexEig cexStack) cexOd := by
  refine ⟨cexOd_involutive.bijective, ?_⟩
  intro a b hab
  rw [cexDelta, cexDelta]
  fin_cases a <;> fin_cases b <;>
    first
      | exact absurd hab (by decide)
      | norm_num +decide [cexOd]

lemma cexVmat00 :
    Vmat cexEig cexStack ⟨0, Nat.succ_pos 3⟩ ⟨0, Nat.succ_pos 2⟩ = 0 := by
  rw [Vmat, sumK_cex (fun a => scaled cexStack ⟨0, Nat.succ_pos 3⟩ a *
    Umat cexEig cexStack a (revIdx ⟨0, Nat.succ_pos 2⟩))]
  simp only [cexScaled, Umat, cexEig]
  norm_num +decide [revIdx, Stack.K, cexStack]

lemma cexVmat01 :
    Vmat cexEig cexStack ⟨0, Nat.succ_pos 3⟩ ⟨1, Nat.succ_lt_succ (Nat.succ_pos 1)⟩ =
      2 * (Real.sqrt (4 / 3) * Real.sqrt 2⁻¹) := by
  rw [Vmat, sumK_cex (fun a => scaled cexStack ⟨0, Nat.succ_pos 3⟩ a *
    Umat cexEig cexStack a (revIdx ⟨1, Nat.succ_lt_succ (Nat.succ_pos 1)⟩))]
  simp only [cexScaled, Umat, cexEig]
  norm_num +decide [revIdx, Stack.K, cexStack]
  ring_nf

lemma cexVmat01_pos :
    0 < Vmat cexEig cexStack ⟨0, Nat.succ_pos 3⟩
      ⟨1, Nat.succ_lt_succ (Nat.succ_pos 1)⟩ := by
  rw [cexVmat01]
  positivity

lemma cexvv1_pos :
    0 < vv cexEig cexStack ⟨1, Nat.succ_lt_succ (Nat.succ_pos 1)⟩ := by
  show 0 < Real.sqrt (∑ i, (Vmat cexEig cexStack i
    ⟨1, Nat.succ_lt_succ (Nat.succ_pos 1)⟩) ^ 2)
  refine Real.sqrt_pos.mpr (lt_of_lt_of_le (pow_pos cexVmat01_pos 2) ?_)
  exact Finset.single_le_sum
    (f := fun i => (Vmat cexEig cexStack i
      ⟨1, Nat.succ_lt_succ (Nat.succ_pos 1)⟩) ^ 2)
    (fun i _ => sq_nonneg _) (Finset.mem_univ ⟨0, Nat.succ_pos 3⟩)

lemma sumR_cex (f : Fin cexStack.R → ℝ) :
    ∑ r, f r = f ⟨0, Nat.succ_pos 2⟩ + f ⟨1, Nat.succ_lt_succ (Nat.succ_pos 1)⟩ +
      f ⟨2, Nat.lt_succ_self 2⟩ := Fin.sum_univ_three f

lemma sumC_cex (f : Fin cexStack.C → ℝ) :
    ∑ c, f c = f ⟨0, Nat.one_pos⟩ := Fin.sum_univ_one f

lemma cexData (i : Fin cexStack.N) (r : Fin cexStack.R) (c : Fin cexStack.C) :
    cexStack.data i r c =
      if i.val ≤ 1 then (if r.val = 0 then 2 else if r.val = 1 then 0 else 1)
      else (if r.val = 2 then -2 else 1) := rfl

lemma cexAA (i : Fin cexStack.N) :
    aa cexStack i = if i.val ≤ 1 then 5 else 6 := by
  rw [aa, sumR_cex (fun r => ∑ c, (cexStack.data i r c) ^ 2),
    sumC_cex, sumC_cex, sumC_cex]
  simp only [cexData]
  fin_cases i <;> norm_num +decide

lemma cexAasum : aasum cexStack = 22 := by
  rw [aasum, sumN_cex (fun i => aa cexStack i)]
  rw [cexAA, cexAA, cexAA, cexAA]
  norm_num

/-- Counterexample to C1 as stated: at the 3 x 1 x 4 stack cexStack
(N = 4 > K = 3) the eigensolver output satisfies the full eig_sym contract
(ascending eigenvalues, genuine unit eigenvectors of Lmat), but the top
eigenvalue 16/9 is a double one, so delta has a tied maximum; cexOd is an
admissible result of sort_index(delta, "descend") with od(0) = 1 (unstable
sorting of ties), and the weight it produces at sample 0 differs from the
column-0 formula the claim asserts for every input with N > K. -/
theorem scaleproc_rich_tied_top_ambiguous :
    cexStack.K < cexStack.N ∧
    Monotone (lam cexEig cexStack) ∧
    (∀ j a, ∑ b, Lmat cexStack a b * Umat cexEig cexStack b j =
      lam cexEig cexStack j * Umat cexEig cexStack a j) ∧
    (∀ j, ∑ a, (Umat cexEig cexStack a j) ^ 2 = 1) ∧
    IsDescSortIndex (delta cexEig cexStack) cexOd ∧
    cexOd ⟨0, Nat.succ_pos 2⟩ ≠ ⟨0, Nat.succ_pos 2⟩ ∧
    richHSort cexEig cexStack cexOd (Nat.succ_pos 2) ⟨0, Nat.succ_pos 3⟩ ≠
      |Real.sqrt (aasum cexStack / aa cexStack ⟨0, Nat.succ_pos 3⟩) *
        Vn cexEig cexStack ⟨0, Nat.succ_pos 3⟩ ⟨0, Nat.succ_pos 2⟩| := by
  refine ⟨by decide, cexMonotone, cexEigenpairs, cexUnit, cexIsDesc,
    by decide, ?_⟩
  have hcol0 : Vn cexEig cexStack ⟨0, Nat.succ_pos 3⟩ ⟨0, Nat.succ_pos 2⟩ = 0 := by
    rw [Vn, cexVmat00, zero_div]
  have hod0 : cexOd ⟨0, Nat.succ_pos 2⟩ =
      ⟨1, Nat.succ_lt_succ (Nat.succ_pos 1)⟩ := rfl
  rw [richHSort, hod0, hcol0, mul_zero, abs_zero, abs_ne_zero]
  refine mul_ne_zero (Real.sqrt_ne_zero'.mpr ?_) ?_
  · rw [cexAasum, cexAA]
    norm_num
  · rw [Vn]
    exact div_ne_zero cexVmat01_pos.ne' cexvv1_pos.ne'

/-- C2 amended: in the feature-rich (N <= K) branch the eigenvector column
selected for the output is the one at index maxval = 1 (the reported column
count of the default-constructed, not-yet-filled eigenvalue vector, which
Armadillo reports as a 0 x 1 matrix), so for N <= K with 1 < N the weights
are h i = abs(sqrt(aasum / aa i) * eigvec(i, 1)); for N = 1 the access
eigvec.col(1) is out of bounds and no vector is returned. -/
theorem scaleproc_poor_column_one (eig : EigSolver) (x : Stack)
    (hbr : ¬ x.K < x.N) (hN : 1 < x.N) :
    scaleproc eig x = some (fun i =>
      |Real.sqrt (aasum x / aa x i) * eigvecPoor eig x i ⟨1, hN⟩|) := by
  rw [scaleproc, if_neg hbr, featureRichResult,
    dif_pos (show maxvalIdx < x.N from hN)]
  rfl

/-- Witness for C2's amended statement at the 2 x 1 x 2 stack. -/
theorem scaleproc_poor_column_one_witness :
    scaleproc trivEig stack2 = some (fun i =>
      |Real.sqrt (aasum stack2 / aa stack2 i) *
        eigvecPoor trivEig stack2 i ⟨1, Nat.lt_succ_self 1⟩|) :=
  scaleproc_poor_column_one trivEig stack2 (by decide) (Nat.lt_succ_self 1)

/-- Counterexample to C2 as stated: at the 2 x 1 x 2 stack (N = K = 2) the
output is not the column-0 formula the claim asserts, because the code
selects column 1. -/
theorem scaleproc_poor_not_column_zero :
    scaleproc trivEig stack2 ≠ some (fun i =>
      |Real.sqrt (aasum stack2 / aa stack2 i) *
        eigvecPoor trivEig stack2 i ⟨0, Nat.succ_pos 1⟩|) := by
  intro hcontra
  have hval : scaleproc trivEig stack2 =
      some (poorH trivEig stack2 (Nat.lt_succ_self 1)) := rfl
  rw [hval] at hcontra
  have h0 := congrFun (Option.some.inj hcontra) ⟨0, Nat.succ_pos 1⟩
  have haa0 : aa stack2 ⟨0, Nat.succ_pos 1⟩ = 1 := by
    simp only [aa, stack2, Fin.sum_univ_succ, Fin.sum_univ_zero]
    norm_num
  have hsum : aasum stack2 = 2 := by
    simp only [aasum, aa, stack2, Fin.sum_univ_succ, Fin.sum_univ_zero]
    norm_num
  rw [poorH, haa0, hsum] at h0
  simp only [eigvecPoor, trivEig, maxvalIdx, Fin.ext_iff] at h0
  norm_num at h0
  rw [abs_of_nonneg (Real.sqrt_nonneg 2)] at h0
  exact (Real.sqrt_ne_zero'.mpr (by norm_num : (0:ℝ) < 2)) h0.symm

/-- Counterexample to C4 as stated: the 1 x 1 x 1 stack has R, C, N >= 1 and
strictly positive aa(0), yet scaleproc returns no vector at all: N = 1 takes
the feature-rich branch and the access eigvec.col(1) is out of bounds. -/
theorem scaleproc_no_output_single_sample :
    1 ≤ stack1.R ∧ 1 ≤ stack1.C ∧ 1 ≤ stack1.N ∧
    0 < aa stack1 ⟨0, Nat.one_pos⟩ ∧ scaleproc trivEig stack1 = none := by
  refine ⟨le_refl 1, le_refl 1, le_refl 1, ?_, rfl⟩
  simp only [aa, stack1, Fin.sum_univ_succ, Fin.sum_univ_zero]
  norm_num

/-- C4 amended: for every stack with R, C >= 1, N >= 2 and every aa(i)
strictly positive, scaleproc returns a weight vector (of length N, as its
type shows) all of whose entries are non-negative, in both branches; the
case N = 1, which the claim as stated also covered, returns nothing
because of the out-of-bounds column read in the feature-rich branch. -/
theorem scaleproc_length_nonneg (eig : EigSolver) (x : Stack)
    (hR : 1 ≤ x.R) (hC : 1 ≤ x.C) (hN : 2 ≤ x.N)
    (haa : ∀ i, 0 < aa x i) :
    ∃ h : Fin x.N → ℝ, scaleproc eig x = some h ∧ ∀ i, 0 ≤ h i := by
  rw [scaleproc]
  by_cases hbr : x.K < x.N
  · rw [if_pos hbr]
    have hK : 0 < x.K := Nat.mul_pos hR hC
    refine ⟨richH eig x hK, ?_, fun i => abs_nonneg _⟩
    rw [samplesRichResult, dif_pos hK]
  · rw [if_neg hbr]
    have hN' : maxvalIdx < x.N := hN
    refine ⟨poorH eig x hN', ?_, fun i => abs_nonneg _⟩
    rw [featureRichResult, dif_pos hN']

/-- Witness for C4's amended statement at the 2 x 1 x 2 stack. -/
theorem scaleproc_length_nonneg_witness :
    ∃ h : Fin stack2.N → ℝ,
      scaleproc trivEig stack2 = some h ∧ ∀ i, 0 ≤ h i :=
  scaleproc_length_nonneg trivEig stack2 (by decide) (by decide) (by decide)
    (by
      intro i
      fin_cases i <;>
        (simp only [aa, stack2, Fin.sum_univ_succ, Fin.sum_univ_zero]; norm_num))

/-- C9: in the samples-rich branch, every column of V whose
pre-normalisation norm vv(j) is positive has unit Euclidean norm after the
normalisation loop, and the returned weights factor as
h i = sqrt(aasum / aa i) * abs of the selected (unit, when its vv is
positive) column entry. -/
theorem rich_columns_unit_norm (eig : EigSolver) (x : Stack) (hK : 0 < x.K)
    (j : Fin x.K) (hvv : 0 < vv eig x j) :
    Real.sqrt (∑ i, (Vn eig x i j) ^ 2) = 1 ∧
    ∀ i, richH eig x hK i = Real.sqrt (aasum x / aa x i) *
      |Vn eig x i (argmaxFirst (delta eig x) hK)| := by
  constructor
  · have hvv' : 0 < Real.sqrt (∑ i, (Vmat eig x i j) ^ 2) := hvv
    have hssq : 0 < ∑ i, (Vmat eig x i j) ^ 2 := Real.sqrt_pos.mp hvv'
    have hsum : ∑ i, (Vn eig x i j) ^ 2 = 1 := by
      simp only [Vn, div_pow]
      rw [← Finset.sum_div,
        show vv eig x j ^ 2 = ∑ i, (Vmat eig x i j) ^ 2 from
          Real.sq_sqrt (Finset.sum_nonneg fun i _ => sq_nonneg _)]
      exact div_self hssq.ne'
    rw [hsum, Real.sqrt_one]
  · intro i
    rw [richH, abs_mul, abs_of_nonneg (Real.sqrt_nonneg _)]

lemma omat3 (i : Fin stack3.N) (j : Fin stack3.K) :
    omatEntry stack3 i j = if j.val = 0 then 3 else 0 := by
  fin_cases j <;> rfl

lemma qq3 (i : Fin stack3.N) : qq stack3 i = 3 := by
  have hm : rowMean stack3 i = 3 / 2 := by
    simp only [rowMean, omat3]
    rw [show ∑ j : Fin stack3.K, (if j.val = 0 then (3:ℝ) else 0) =
        (3:ℝ) + 0 from Fin.sum_univ_two _]
    norm_num [Stack.K, stack3]
  simp only [qq, rowVar, df0, hm, omat3]
  rw [show ∑ j : Fin stack3.K, ((if j.val = 0 then (3:ℝ) else 0) - 3/2) ^ 2 =
      ((3:ℝ) - 3/2) ^ 2 + ((0:ℝ) - 3/2) ^ 2 from Fin.sum_univ_two _]
  norm_num [Stack.K, stack3]

lemma scaled3_sq (i : Fin stack3.N) :
    scaled stack3 i ⟨1, Nat.lt_succ_self 1⟩ ^ 2 = 3 / 4 := by
  have hm : rowMean stack3 i = 3 / 2 := by
    simp only [rowMean, omat3]
    rw [show ∑ j : Fin stack3.K, (if j.val = 0 then (3:ℝ) else 0) =
        (3:ℝ) + 0 from Fin.sum_univ_two _]
    norm_num [Stack.K, stack3]
  have hc : centered stack3 i ⟨1, Nat.lt_succ_self 1⟩ = -(3/2) := by
    simp only [centered, omat3, hm]
    norm_num
  rw [scaled, hc, qq3, mul_pow]
  rw [show Real.sqrt (1/3) ^ 2 = 1/3 from Real.sq_sqrt (by norm_num)]
  norm_num

/-- Witness for C9: at the 2 x 1 x 3 stack the column with positive vv is a
unit vector after normalisation. -/
theorem rich_columns_unit_norm_witness :
    Real.sqrt (∑ i, (Vn trivEig stack3 i ⟨0, Nat.succ_pos 1⟩) ^ 2) = 1 :=
  (rich_columns_unit_norm trivEig stack3 (Nat.succ_pos 1) ⟨0, Nat.succ_pos 1⟩
    (by
      have hvmat : ∀ i, Vmat trivEig stack3 i ⟨0, Nat.succ_pos 1⟩ =
          scaled stack3 i ⟨1, Nat.lt_succ_self 1⟩ := by
        intro i
        rw [Vmat]
        simp only [Umat, trivEig, mul_ite, mul_one, mul_zero,
          Finset.sum_ite_eq', Finset.mem_univ, if_true]
        rfl
      have hs : ∑ i, (Vmat trivEig stack3 i ⟨0, Nat.succ_pos 1⟩) ^ 2 = 9/4 := by
        simp only [hvmat, scaled3_sq]
        rw [show ∑ _i : Fin stack3.N, (3/4 : ℝ) = 3 * (3/4) from by
          rw [Finset.sum_const]
          norm_num [stack3]]
        norm_num
      show 0 < Real.sqrt (∑ i, (Vmat trivEig stack3 i ⟨0, Nat.succ_pos 1⟩) ^ 2)
      rw [hs]
      exact Real.sqrt_pos.mpr (by norm_num))).1

/-- C10: each aa(i) is a sum of squares hence non-negative, aasum dominates
every aa(i), so for aa(i) > 0 the factor sqrt(aasum / aa(i)) is at least 1
and each output weight is at least the absolute value of the corresponding
selected-eigenvector entry, in both branches. -/
theorem aa_bounds_and_scale (x : Stack) (i : Fin x.N) :
    0 ≤ aa x i ∧ aa x i ≤ aasum x ∧
    (0 < aa x i → 1 ≤ Real.sqrt (aasum x / aa x i)) ∧
    (∀ (eig : EigSolver) (hK : 0 < x.K), 0 < aa x i →
      |Vn eig x i (argmaxFirst (delta eig x) hK)| ≤ richH eig x hK i) ∧
    (∀ (eig : EigSolver) (hN : maxvalIdx < x.N), 0 < aa x i →
      |eigvecPoor eig x i ⟨maxvalIdx, hN⟩| ≤ poorH eig x hN i) := by
  have haan : ∀ j : Fin x.N, 0 ≤ aa x j := fun j =>
    Finset.sum_nonneg fun r _ => Finset.sum_nonneg fun c _ => sq_nonneg _
  have hnn : 0 ≤ aa x i := haan i
  have hle : aa x i ≤ aasum x := by
    rw [aasum]
    exact Finset.single_le_sum (f := aa x) (fun j _ => haan j) (Finset.mem_univ i)
  have hsq : 0 < aa x i → 1 ≤ Real.sqrt (aasum x / aa x i) := by
    intro hpos
    have hr : 1 ≤ aasum x / aa x i := (one_le_div hpos).mpr hle
    calc (1:ℝ) = Real.sqrt 1 := Real.sqrt_one.symm
      _ ≤ Real.sqrt (aasum x / aa x i) := Real.sqrt_le_sqrt hr
  refine ⟨hnn, hle, hsq, ?_, ?_⟩
  · intro eig hK hpos
    rw [richH, abs_mul, abs_of_nonneg (Real.sqrt_nonneg _)]
    exact le_mul_of_one_le_left (abs_nonneg _) (hsq hpos)
  · intro eig hN hpos
    rw [poorH, abs_mul, abs_of_nonneg (Real.sqrt_nonneg _)]
    exact le_mul_of_one_le_left (abs_nonneg _) (hsq hpos)

/-- Witness for C10 at the 2 x 1 x 2 stack and its first sample. -/
theorem aa_bounds_and_scale_witness :
    0 ≤ aa stack2 ⟨0, Nat.succ_pos 1⟩ ∧
    aa stack2 ⟨0, Nat.succ_pos 1⟩ ≤ aasum stack2 ∧
    1 ≤ Real.sqrt (aasum stack2 / aa stack2 ⟨0, Nat.succ_pos 1⟩) ∧
    |eigvecPoor trivEig stack2 ⟨0, Nat.succ_pos 1⟩ ⟨1, Nat.lt_succ_self 1⟩| ≤
      poorH trivEig stack2 (Nat.lt_succ_self 1) ⟨0, Nat.succ_pos 1⟩ := by
  have hpos : 0 < aa stack2 ⟨0, Nat.succ_pos 1⟩ := by
    simp only [aa, stack2, Fin.sum_univ_succ, Fin.sum_univ_zero]
    norm_num
  have h := aa_bounds_and_scale stack2 ⟨0, Nat.succ_pos 1⟩
  exact ⟨h.1, h.2.1, h.2.2.1 hpos,
    h.2.2.2.2 trivEig (Nat.lt_succ_self 1) hpos⟩

/-- The input stack with every sample matrix multiplied by the scalar s. -/
def smulStack (s : ℝ) (x : Stack) : Stack :=
  ⟨x.R, x.C, x.N, fun i r c => s * x.data i r c⟩

lemma omatEntry_smul (s : ℝ) (x : Stack) (i : Fin x.N) (j : Fin x.K) :
    omatEntry (smulStack s x) i j = s * omatEntry x i j := rfl

lemma aa_smul (s : ℝ) (x : Stack) (i : Fin x.N) :
    aa (smulStack s x) i = s ^ 2 * aa x i := by
  simp only [aa, smulStack, mul_pow, ← Finset.mul_sum]

lemma aasum_smul (s : ℝ) (x : Stack) :
    aasum (smulStack s x) = s ^ 2 * aasum x := by
  show ∑ i : Fin x.N, aa (smulStack s x) i = s ^ 2 * ∑ i : Fin x.N, aa x i
  rw [Finset.mul_sum]
  exact Finset.sum_congr rfl fun i _ => aa_smul s x i

lemma ratio_smul (s : ℝ) (hs : s ≠ 0) (x : Stack) (i : Fin x.N) :
    aasum (smulStack s x) / aa (smulStack s x) i = aasum x / aa x i := by
  rw [aasum_smul, aa_smul]
  exact mul_div_mul_left _ _ (pow_ne_zero 2 hs)

lemma rowMean_smul (s : ℝ) (x : Stack) (i : Fin x.N) :
    rowMean (smulStack s x) i = s * rowMean x i := by
  show (∑ j : Fin x.K, omatEntry (smulStack s x) i j) / (x.K : ℝ) =
    s * ((∑ j : Fin x.K, omatEntry x i j) / (x.K : ℝ))
  rw [show (∑ j : Fin x.K, omatEntry (smulStack s x) i j) =
      s * ∑ j : Fin x.K, omatEntry x i j from by
    rw [Finset.mul_sum]
    exact Finset.sum_congr rfl fun j _ => omatEntry_smul s x i j]
  rw [mul_div_assoc]

lemma centered_smul (s : ℝ) (x : Stack) (i : Fin x.N) (j : Fin x.K) :
    centered (smulStack s x) i j = s * centered x i j := by
  rw [centered, centered, omatEntry_smul, rowMean_smul]
  ring

lemma qq_smul (s : ℝ) (x : Stack) (i : Fin x.N) :
    qq (smulStack s x) i = s ^ 2 * qq x i := by
  have hterm : ∀ j : Fin x.K,
      (omatEntry (smulStack s x) i j - rowMean (smulStack s x) i) ^ 2 =
        s ^ 2 * (omatEntry x i j - rowMean x i) ^ 2 := by
    intro j
    rw [omatEntry_smul, rowMean_smul]
    ring
  show (∑ j : Fin x.K, (omatEntry (smulStack s x) i j -
      rowMean (smulStack s x) i) ^ 2) / ((x.K : ℝ) - 1) * df0 x =
    s ^ 2 * ((∑ j : Fin x.K, (omatEntry x i j - rowMean x i) ^ 2) /
      ((x.K : ℝ) - 1) * df0 x)
  rw [Finset.sum_congr rfl fun j _ => hterm j, ← Finset.mul_sum]
  ring

lemma scaled_smul (s : ℝ) (hs : 0 < s) (x : Stack) (i : Fin x.N) (j : Fin x.K) :
    scaled (smulStack s x) i j = scaled x i j := by
  rw [scaled, scaled, qq_smul, centered_smul]
  rw [show (1:ℝ) / (s ^ 2 * qq x i) = s⁻¹ ^ 2 * (1 / qq x i) by
    rw [one_div, mul_inv, one_div]
    ring]
  rw [Real.sqrt_mul (sq_nonneg s⁻¹), Real.sqrt_sq (inv_nonneg.mpr hs.le)]
  field_simp
  rw [mul_div_mul_left _ _ hs.ne']

lemma Lmat_smul (s : ℝ) (hs : 0 < s) (x : Stack) :
    Lmat (smulStack s x) = Lmat x := by
  funext a b
  rw [Lmat, Lmat]
  congr 1
  exact Finset.sum_congr rfl fun i _ => by
    rw [scaled_smul s hs x i a, scaled_smul s hs x i b]

lemma sampleCov_smul (s : ℝ) (x : Stack) (i1 i2 : Fin x.N) :
    sampleCov (smulStack s x) i1 i2 = s ^ 2 * sampleCov x i1 i2 := by
  have hterm : ∀ j : Fin x.K,
      (omatEntry (smulStack s x) i1 j - rowMean (smulStack s x) i1) *
        (omatEntry (smulStack s x) i2 j - rowMean (smulStack s x) i2) =
      s ^ 2 * ((omatEntry x i1 j - rowMean x i1) *
        (omatEntry x i2 j - rowMean x i2)) := by
    intro j
    rw [omatEntry_smul, omatEntry_smul, rowMean_smul, rowMean_smul]
    ring
  show (∑ j : Fin x.K,
      (omatEntry (smulStack s x) i1 j - rowMean (smulStack s x) i1) *
        (omatEntry (smulStack s x) i2 j - rowMean (smulStack s x) i2)) /
      ((x.K : ℝ) - 1) =
    s ^ 2 * ((∑ j : Fin x.K, (omatEntry x i1 j - rowMean x i1) *
      (omatEntry x i2 j - rowMean x i2)) / ((x.K : ℝ) - 1))
  rw [Finset.sum_congr rfl fun j _ => hterm j, ← Finset.mul_sum, mul_div_assoc]

lemma zzCor_smul (s : ℝ) (hs : 0 < s) (x : Stack) :
    zzCor (smulStack s x) = zzCor x := by
  funext i1 i2
  rw [zzCor, zzCor, sampleCov_smul, sampleCov_smul, sampleCov_smul]
  rw [Real.sqrt_mul (sq_nonneg s), Real.sqrt_mul (sq_nonneg s),
    Real.sqrt_sq hs.le]
  rw [show s * Real.sqrt (sampleCov x i1 i1) * (s * Real.sqrt (sampleCov x i2 i2)) =
    s ^ 2 * (Real.sqrt (sampleCov x i1 i1) * Real.sqrt (sampleCov x i2 i2)) by ring]
  exact mul_div_mul_left _ _ (pow_ne_zero 2 hs.ne')

lemma richH_smul (eig : EigSolver) (s : ℝ) (hs : 0 < s) (x : Stack)
    (hK : 0 < x.K) (i : Fin x.N) :
    richH eig (smulStack s x) hK i = richH eig x hK i := by
  have hU : Umat eig (smulStack s x) = Umat eig x := by
    show (eig x.K (Lmat (smulStack s x))).vec = (eig x.K (Lmat x)).vec
    rw [Lmat_smul s hs]
  have hlam : lam eig (smulStack s x) = lam eig x := by
    show (eig x.K (Lmat (smulStack s x))).val = (eig x.K (Lmat x)).val
    rw [Lmat_smul s hs]
  have hVm : ∀ (i0 : Fin x.N) (j : Fin x.K),
      Vmat eig (smulStack s x) i0 j = Vmat eig x i0 j := by
    intro i0 j
    show ∑ a : Fin x.K, scaled (smulStack s x) i0 a *
        Umat eig (smulStack s x) a (revIdx j) = Vmat eig x i0 j
    rw [hU]
    rw [Finset.sum_congr rfl fun a _ => by rw [scaled_smul s hs x i0 a]]
    rfl
  have hvv : ∀ j : Fin x.K, vv eig (smulStack s x) j = vv eig x j := by
    intro j
    show Real.sqrt (∑ i0 : Fin x.N, (Vmat eig (smulStack s x) i0 j) ^ 2) = _
    rw [show (∑ i0 : Fin x.N, (Vmat eig (smulStack s x) i0 j) ^ 2) =
        ∑ i0 : Fin x.N, (Vmat eig x i0 j) ^ 2 from
      Finset.sum_congr rfl fun i0 _ => by rw [hVm i0 j]]
    rfl
  have hdelta : ∀ j : Fin x.K, delta eig (smulStack s x) j = delta eig x j := by
    intro j
    show Real.sqrt |lam eig (smulStack s x) (revIdx j) / (x.K : ℝ)| *
        vv eig (smulStack s x) j = _
    rw [hlam, hvv j]
    rfl
  have hdeltafun : delta eig (smulStack s x) = delta eig x :=
    funext fun j => hdelta j
  have harg : argmaxFirst (delta eig (smulStack s x)) hK =
      argmaxFirst (delta eig x) hK := by
    rw [hdeltafun]
  have hVn : ∀ (i0 : Fin x.N) (j : Fin x.K),
      Vn eig (smulStack s x) i0 j = Vn eig x i0 j := by
    intro i0 j
    rw [Vn, Vn, hVm i0 j, hvv j]
  rw [richH, richH, ratio_smul s hs.ne' x i, harg,
    hVn i (argmaxFirst (delta eig x) hK)]

lemma poorH_smul (eig : EigSolver) (s : ℝ) (hs : 0 < s) (x : Stack)
    (hN : maxvalIdx < x.N) (i : Fin x.N) :
    poorH eig (smulStack s x) hN i = poorH eig x hN i := by
  have hvec : eigvecPoor eig (smulStack s x) = eigvecPoor eig x := by
    show (eig x.N (zzCor (smulStack s x))).vec = (eig x.N (zzCor x)).vec
    rw [zzCor_smul s hs]
  rw [poorH, poorH, ratio_smul s hs.ne' x i, hvec]

/-- C6: multiplying every sample matrix by a positive scalar s multiplies
each aa(i) by s squared, leaves every ratio aasum / aa(i) unchanged, and
leaves the output of scaleproc unchanged (here exactly, not merely up to
eigenvector sign or normalisation: the centering-and-scaling step and the
correlation matrix are exactly scale invariant, so the eigensolver receives
the same matrix). -/
theorem scaleproc_scale_invariant (eig : EigSolver) (x : Stack) (s : ℝ)
    (hs : 0 < s) :
    (∀ i, aa (smulStack s x) i = s ^ 2 * aa x i) ∧
    (∀ i, aasum (smulStack s x) / aa (smulStack s x) i = aasum x / aa x i) ∧
    scaleproc eig (smulStack s x) = scaleproc eig x := by
  refine ⟨aa_smul s x, ratio_smul s hs.ne' x, ?_⟩
  show (if x.K < x.N then samplesRichResult eig (smulStack s x)
      else featureRichResult eig (smulStack s x)) =
    (if x.K < x.N then samplesRichResult eig x else featureRichResult eig x)
  by_cases hbr : x.K < x.N
  · rw [if_pos hbr, if_pos hbr]
    show (if hK : 0 < x.K then some (richH eig (smulStack s x) hK)
        else none) = _
    rw [samplesRichResult]
    by_cases hK : 0 < x.K
    · rw [dif_pos hK, dif_pos hK]
      exact congrArg some (funext fun i => richH_smul eig s hs x hK i)
    · rw [dif_neg hK, dif_neg hK]
  · rw [if_neg hbr, if_neg hbr]
    show (if hN : maxvalIdx < x.N then some (poorH eig (smulStack s x) hN)
        else none) = _
    rw [featureRichResult]
    by_cases hN : maxvalIdx < x.N
    · rw [dif_pos hN, dif_pos hN]
      exact congrArg some (funext fun i => poorH_smul eig s hs x hN i)
    · rw [dif_neg hN, dif_neg hN]

/-- Witness for C6 at the 2 x 1 x 2 stack with s = 2: the aa value scales by
4 and the output is unchanged. -/
theorem scaleproc_scale_invariant_witness :
    aa (smulStack 2 stack2) ⟨0, Nat.succ_pos 1⟩ =
      2 ^ 2 * aa stack2 ⟨0, Nat.succ_pos 1⟩ ∧
    scaleproc trivEig (smulStack 2 stack2) = scaleproc trivEig stack2 :=
  ⟨(scaleproc_scale_invariant trivEig stack2 2 (by norm_num)).1 ⟨0, Nat.succ_pos 1⟩,
   (scaleproc_scale_invariant trivEig stack2 2 (by norm_num)).2.2⟩

/-- The input stack with its slices rearranged: slice i of the new stack is
slice (sigma i) of the old one. -/
def permStack (x : Stack) (σ : Equiv.Perm (Fin x.N)) : Stack :=
  ⟨x.R, x.C, x.N, fun i => x.data (σ i)⟩

lemma aa_perm (x : Stack) (σ : Equiv.Perm (Fin x.N)) (i : Fin x.N) :
    aa (permStack x σ) i = aa x (σ i) := rfl

lemma aasum_perm (x : Stack) (σ : Equiv.Perm (Fin x.N)) :
    aasum (permStack x σ) = aasum x := by
  show ∑ i : Fin x.N, aa (permStack x σ) i = aasum x
  rw [Finset.sum_congr rfl fun i _ => aa_perm x σ i]
  exact Equiv.sum_comp σ (aa x)

lemma scaled_perm (x : Stack) (σ : Equiv.Perm (Fin x.N)) (i : Fin x.N)
    (j : Fin x.K) : scaled (permStack x σ) i j = scaled x (σ i) j := rfl

lemma Lmat_perm (x : Stack) (σ : Equiv.Perm (Fin x.N)) :
    Lmat (permStack x σ) = Lmat x := by
  funext a b
  show (∑ i : Fin x.N, scaled (permStack x σ) i a * scaled (permStack x σ) i b) /
      (x.K : ℝ) = Lmat x a b
  rw [Finset.sum_congr rfl fun i _ => by
    rw [scaled_perm x σ i a, scaled_perm x σ i b]]
  rw [Equiv.sum_comp σ (fun i => scaled x i a * scaled x i b)]
  rfl

lemma richH_perm (eig : EigSolver) (x : Stack) (σ : Equiv.Perm (Fin x.N))
    (hK : 0 < x.K) (i : Fin x.N) :
    richH eig (permStack x σ) hK i = richH eig x hK (σ i) := by
  have hU : Umat eig (permStack x σ) = Umat eig x := by
    show (eig x.K (Lmat (permStack x σ))).vec = (eig x.K (Lmat x)).vec
    rw [Lmat_perm x σ]
  have hlam : lam eig (permStack x σ) = lam eig x := by
    show (eig x.K (Lmat (permStack x σ))).val = (eig x.K (Lmat x)).val
    rw [Lmat_perm x σ]
  have hVm : ∀ (i0 : Fin x.N) (j : Fin x.K),
      Vmat eig (permStack x σ) i0 j = Vmat eig x (σ i0) j := by
    intro i0 j
    show ∑ a : Fin x.K, scaled (permStack x σ) i0 a *
        Umat eig (permStack x σ) a (revIdx j) = Vmat eig x (σ i0) j
    rw [hU]
    rw [Finset.sum_congr rfl fun a _ => by rw [scaled_perm x σ i0 a]]
    rfl
  have hvv : ∀ j : Fin x.K, vv eig (permStack x σ) j = vv eig x j := by
    intro j
    show Real.sqrt (∑ i0 : Fin x.N, (Vmat eig (permStack x σ) i0 j) ^ 2) = _
    rw [show (∑ i0 : Fin x.N, (Vmat eig (permStack x σ) i0 j) ^ 2) =
        ∑ i0 : Fin x.N, (Vmat eig x (σ i0) j) ^ 2 from
      Finset.sum_congr rfl fun i0 _ => by rw [hVm i0 j]]
    rw [Equiv.sum_comp σ (fun i0 => (Vmat eig x i0 j) ^ 2)]
    rfl
  have hdelta : ∀ j : Fin x.K, delta eig (permStack x σ) j = delta eig x j := by
    intro j
    show Real.sqrt |lam eig (permStack x σ) (revIdx j) / (x.K : ℝ)| *
        vv eig (permStack x σ) j = _
    rw [hlam, hvv j]
    rfl
  have harg : argmaxFirst (delta eig (permStack x σ)) hK =
      argmaxFirst (delta eig x) hK := by
    rw [funext fun j => hdelta j]
  have hVn : ∀ (i0 : Fin x.N) (j : Fin x.K),
      Vn eig (permStack x σ) i0 j = Vn eig x (σ i0) j := by
    intro i0 j
    rw [Vn, Vn, hVm i0 j, hvv j]
  rw [richH, richH, aasum_perm x σ, aa_perm x σ i, harg,
    hVn i (argmaxFirst (delta eig x) hK)]

lemma zzCor_perm (x : Stack) (σ : Equiv.Perm (Fin x.N)) (i1 i2 : Fin x.N) :
    zzCor (permStack x σ) i1 i2 = zzCor x (σ i1) (σ i2) := rfl

lemma poorH_perm (eig : EigSolver) (x : Stack) (σ : Equiv.Perm (Fin x.N))
    (hN : maxvalIdx < x.N) (ε : ℝ) (hε : ε = 1 ∨ ε = -1)
    (hcol : ∀ i, eigvecPoor eig (permStack x σ) i ⟨maxvalIdx, hN⟩ =
      ε * eigvecPoor eig x (σ i) ⟨maxvalIdx, hN⟩)
    (i : Fin x.N) :
    poorH eig (permStack x σ) hN i = poorH eig x hN (σ i) := by
  rw [poorH, poorH, aasum_perm x σ, aa_perm x σ i, hcol i]
  rcases hε with h | h
  · rw [h, one_mul]
  · rw [h, neg_one_mul, mul_neg, abs_neg]

/-- C7: rearranging the N samples rearranges the output of scaleproc the
same way: slice i of the permuted stack is slice (sigma i) of the original,
and entry i of the permuted output is entry (sigma i) of the original,
because aa, the rows of omat, and the final per-sample indexing move with
sample identity.  In the samples-rich branch Lmat is exactly invariant under
the permutation, so the eigensolver sees the same matrix and no assumption
on it is needed.  In the feature-rich branch the correlation matrix is
conjugated by the permutation, and the hypothesis says the eigenvector
column the code reads (column 1) comes back as the row-permuted column up
to an overall sign: for a genuine eigendecomposition this is automatic
whenever the corresponding eigenvalue is simple, since unit eigenvectors of
a simple eigenvalue of the conjugated matrix are unique up to sign, and the
absolute value in h then removes the sign. -/
theorem scaleproc_permutes (eig : EigSolver) (x : Stack)
    (σ : Equiv.Perm (Fin x.N))
    (heig : ∀ hN : maxvalIdx < x.N, ∃ ε : ℝ, (ε = 1 ∨ ε = -1) ∧
      ∀ i, eigvecPoor eig (permStack x σ) i ⟨maxvalIdx, hN⟩ =
        ε * eigvecPoor eig x (σ i) ⟨maxvalIdx, hN⟩) :
    scaleproc eig (permStack x σ) =
      Option.map (fun h (i : Fin x.N) => h (σ i)) (scaleproc eig x) := by
  show (if x.K < x.N then samplesRichResult eig (permStack x σ)
      else featureRichResult eig (permStack x σ)) =
    Option.map (fun h (i : Fin x.N) => h (σ i))
      (if x.K < x.N then samplesRichResult eig x else featureRichResult eig x)
  by_cases hbr : x.K < x.N
  · rw [if_pos hbr, if_pos hbr]
    show (if hK : 0 < x.K then some (richH eig (permStack x σ) hK)
        else none) = _
    rw [samplesRichResult]
    by_cases hK : 0 < x.K
    · rw [dif_pos hK, dif_pos hK]
      exact congrArg some (funext fun i => richH_perm eig x σ hK i)
    · rw [dif_neg hK, dif_neg hK]
      rfl
  · rw [if_neg hbr, if_neg hbr]
    show (if hN : maxvalIdx < x.N then some (poorH eig (permStack x σ) hN)
        else none) = _
    rw [featureRichResult]
    by_cases hN : maxvalIdx < x.N
    · rw [dif_pos hN, dif_pos hN]
      obtain ⟨ε, hε, hcol⟩ := heig hN
      exact congrArg some (funext fun i => poorH_perm eig x σ hN ε hε hcol i)
    · rw [dif_neg hN, dif_neg hN]
      rfl

/-- Witness for C7 at the 2 x 1 x 2 stack with the swap of the two samples
and an eigensolver whose output is a genuine eigensystem of that stack's
correlation matrix [[1,-1],[-1,1]]: the conjugated matrix equals the
original, and the selected eigenvector (1,-1)/sqrt 2 is the row-swapped one
with sign -1. -/
theorem scaleproc_permutes_witness :
    scaleproc swapEig (permStack stack2
        (Equiv.swap ⟨0, Nat.succ_pos 1⟩ ⟨1, Nat.lt_succ_self 1⟩)) =
      Option.map (fun h (i : Fin stack2.N) =>
          h (Equiv.swap (⟨0, Nat.succ_pos 1⟩ : Fin stack2.N)
            ⟨1, Nat.lt_succ_self 1⟩ i))
        (scaleproc swapEig stack2) :=
  scaleproc_permutes swapEig stack2
    (Equiv.swap ⟨0, Nat.succ_pos 1⟩ ⟨1, Nat.lt_succ_self 1⟩)
    (by
      intro hN
      refine ⟨-1, Or.inr rfl, ?_⟩
      intro i
      fin_cases i <;>
        (simp only [eigvecPoor, swapEig, Equiv.swap_apply_def]
         norm_num +decide))

end

end CubeStuff
